import Mathlib

/-!
# Verification of the PurBeurre persistence/mapping layer

Shallow embedding of `src/Model/Manager/entity_manager.py`
(class `EntityManager`): the entity factory `create_instance`, the
statement builder `create_query_insert_row`, the flattener
`flatten_list`, the batch executor `insert_all` and the row reader
`select_row`, together with an abstract model of the MySQL statement
forms the builder emits (name-keyed upsert, insert-or-ignore into an
association table, `@id_<table>` session variables).

The entity classes (`Model/Entity/product.py`, `category.py`,
`store.py`) are not part of the sources at hand; they are plain data
records and are modelled from the specification (see the doc comments
starting `Modelled from the spec:`).
-/

namespace PurBeurre

/-- Modelled from the spec: raw attribute values handed to the factory
(`**attributes` in Python): a string, an integer, or Python `None`.
These are the value shapes produced by the API layer and by row reads. -/
inductive PyVal : Type where
  | pStr : String → PyVal
  | pInt : Int → PyVal
  | pNone : PyVal
deriving DecidableEq, Repr

mutual
/-- Modelled from the spec: the value of one attribute of a constructed
entity: a scalar string, a scalar integer, Python `None`, or a list of
child entities (a Product's categories or stores). -/
inductive EAttr : Type where
  | vStr : String → EAttr
  | vInt : Int → EAttr
  | vNone : EAttr
  | vList : List Entity → EAttr

/-- Modelled from the spec: `Model/Entity` classes are absent from the
sources; per the spec they are plain data records (Product, Category,
Store).  An entity is its table name (the lower-cased class name used
by `entity.__class__.__name__.lower()`) together with its attributes in
declaration order, as returned by `get_items()`. -/
inductive Entity : Type where
  | mk : String → List (String × EAttr) → Entity
end

mutual
def beqEAttr : EAttr → EAttr → Bool
  | .vStr a => fun b => match b with | .vStr c => a == c | _ => false
  | .vInt a => fun b => match b with | .vInt c => a == c | _ => false
  | .vNone => fun b => match b with | .vNone => true | _ => false
  | .vList a => fun b => match b with | .vList c => beqEntityList a c | _ => false

def beqEntity : Entity → Entity → Bool
  | .mk t1 i1 => fun b =>
      match b with | .mk t2 i2 => t1 == t2 && beqItems i1 i2

def beqEntityList : List Entity → List Entity → Bool
  | [] => fun b => match b with | [] => true | _ => false
  | a :: as => fun b =>
      match b with
      | [] => false
      | c :: cs => beqEntity a c && beqEntityList as cs

def beqItems : List (String × EAttr) → List (String × EAttr) → Bool
  | [] => fun b => match b with | [] => true | _ => false
  | (k1, v1) :: as => fun b =>
      match b with
      | [] => false
      | (k2, v2) :: cs => k1 == k2 && beqEAttr v1 v2 && beqItems as cs
end

mutual
theorem beqEAttr_iff : ∀ a b, beqEAttr a b = true ↔ a = b
  | .vStr a, b => by
      cases b <;> simp [beqEAttr]
  | .vInt a, b => by
      cases b <;> simp [beqEAttr]
  | .vNone, b => by
      cases b <;> simp [beqEAttr]
  | .vList a, b => by
      cases b <;> simp [beqEAttr]
      exact beqEntityList_iff a _

theorem beqEntity_iff : ∀ a b, beqEntity a b = true ↔ a = b
  | .mk t1 i1, .mk t2 i2 => by
      simp [beqEntity, beqItems_iff i1 i2]

theorem beqEntityList_iff : ∀ a b, beqEntityList a b = true ↔ a = b
  | [], b => by
      cases b <;> simp [beqEntityList]
  | a :: as, b => by
      cases b with
      | nil => simp [beqEntityList]
      | cons c cs =>
          simp [beqEntityList, beqEntity_iff a c, beqEntityList_iff as cs]

theorem beqItems_iff : ∀ a b, beqItems a b = true ↔ a = b
  | [], b => by
      cases b <;> simp [beqItems]
  | (k1, v1) :: as, b => by
      cases b with
      | nil => simp [beqItems]
      | cons c cs =>
          obtain ⟨k2, v2⟩ := c
          simp [beqItems, beqEAttr_iff v1 v2, beqItems_iff as cs, and_assoc]
end

instance : DecidableEq EAttr :=
  fun a b => decidable_of_iff _ (beqEAttr_iff a b)

instance : DecidableEq Entity :=
  fun a b => decidable_of_iff _ (beqEntity_iff a b)

/-- The table name of an entity (`entity.__class__.__name__.lower()`). -/
def Entity.table : Entity → String
  | .mk t _ => t

/-- The attribute list of an entity (`entity.get_items()`). -/
def Entity.items : Entity → List (String × EAttr)
  | .mk _ items => items

/-- Modelled from the spec: reading `instance.name` on a freshly built
child Category/Store, whose only attribute is its name. -/
def Entity.name (e : Entity) : String :=
  match e.items.lookup "name" with
  | some (EAttr.vStr s) => s
  | _ => ""

/-! ### Python string primitives

The Python string operations used by the source (`str.split`,
`str.strip`, the `in` test, `str.replace`) are modelled directly on the
character list of the string, so that every definition evaluates. -/

/-- Helper for `pySplit`: scan the characters, emitting the current
token at each separator. -/
def pySplitAux (sep : Char) : List Char → List Char → List String
  | [], cur => [String.mk cur.reverse]
  | c :: rest, cur =>
      if c = sep then String.mk cur.reverse :: pySplitAux sep rest []
      else pySplitAux sep rest (c :: cur)

/-- Python `value.split(sep)` for a one-character separator: splits on
every occurrence, keeping empty tokens (`"A,".split(',') == ['A','']`,
`"".split(',') == ['']`). -/
def pySplit (sep : Char) (s : String) : List String :=
  pySplitAux sep s.data []

/-- Python `str.strip()`: remove leading and trailing whitespace. -/
def pyStrip (s : String) : String :=
  String.mk
    (((s.data.dropWhile Char.isWhitespace).reverse.dropWhile
      Char.isWhitespace).reverse)

/-- Python `c in s` for a single character. -/
def pyContains (s : String) (c : Char) : Bool := s.data.contains c

/-- Python `s.replace(old, '')` for a one-character pattern: drop every
occurrence of the character. -/
def pyRemove (s : String) (c : Char) : String :=
  String.mk (s.data.filter (fun x => x ≠ c))

/-- The register of the classes callable by `create_instance`
(`class_register` in the source). -/
def class_register : List String := ["product", "category", "store"]

/-- The inner loop of `create_instance` (lines 59-80): split a long
string on commas, strip each token, build one child entity per token,
and discard an instance whose name is empty or contains a quote. -/
def child_instances (key : String) (value : String) : List Entity :=
  (pySplit ',' value).foldl
    (fun acc val =>
      let inst := Entity.mk key [("name", EAttr.vStr (pyStrip val))]
      if inst.name = "" then acc
      else if pyContains inst.name '\'' then acc
      else acc ++ [inst])
    []

/-- `EntityManager.create_instance` (lines 30-87): for every attribute
whose key is in the register and whose value is a string, replace the
value by the list of child instances built from the delimited string;
then instantiate the class named by `entity` on the processed
attributes.  An unknown entity kind raises `KeyError` in Python,
modelled as `none`. -/
def create_instance (entity : String) (attributes : List (String × PyVal)) :
    Option Entity :=
  if entity ∈ class_register then
    some (Entity.mk entity (attributes.map
      (fun kv =>
        match kv with
        | (key, PyVal.pStr s) =>
            if key ∈ class_register then (key, EAttr.vList (child_instances key s))
            else (key, EAttr.vStr s)
        | (key, PyVal.pInt n) => (key, EAttr.vInt n)
        | (key, PyVal.pNone) => (key, EAttr.vNone))))
  else none

/-! ## Statement builder -/

/-- A nested list of unknown depth, mirroring the Python lists returned
by `create_query_insert_row` (whose elements are either query strings
or nested lists from recursive calls). -/
inductive Nested (α : Type) : Type where
  | atom : α → Nested α
  | nest : List (Nested α) → Nested α

/-- One query string built by `create_query_insert_row` (lines 127-149),
kept in structured form: the table name, the collected row keys and row
values for the own-row upsert, and, when a parent was given, the
parent's table name for the association tail.  `render` below produces
the exact statement text. -/
structure Fragment : Type where
  table : String
  rowKeys : List String
  rowValues : List EAttr
  parent : Option String
deriving DecidableEq

mutual
/-- `EntityManager.create_query_insert_row` (lines 89-151): walk the
entity's attributes, recursing on list-valued attributes (appending
each child's result as one nested element) and collecting scalar
attributes as row keys and values; then append the entity's own query
at the end of the list of children. -/
def create_query_insert_row : Entity → Option String → List (Nested Fragment)
  | .mk table items => fun parent =>
      let c := collect_items table items
      c.1 ++ [Nested.atom ⟨table, c.2.1, c.2.2, parent⟩]

/-- The loop over `entity.get_items()` (lines 101-115): discard `None`
values, recurse on lists, collect scalars in order. -/
def collect_items : String → List (String × EAttr) →
    List (Nested Fragment) × List String × List EAttr
  | _, [] => ([], [], [])
  | table, (_, EAttr.vNone) :: rest => collect_items table rest
  | table, (_, EAttr.vList cs) :: rest =>
      let r := collect_items table rest
      (children_queries table cs ++ r.1, r.2)
  | table, (key, EAttr.vStr s) :: rest =>
      let r := collect_items table rest
      (r.1, key :: r.2.1, EAttr.vStr s :: r.2.2)
  | table, (key, EAttr.vInt n) :: rest =>
      let r := collect_items table rest
      (r.1, key :: r.2.1, EAttr.vInt n :: r.2.2)

/-- The inner loop on a list-valued attribute (lines 110-111): one
recursive call per child, each appended as a single (nested) element. -/
def children_queries : String → List Entity → List (Nested Fragment)
  | _, [] => []
  | table, c :: rest =>
      Nested.nest (create_query_insert_row c (some table)) ::
        children_queries table rest
end

/-- The entity's own query of `create_query_insert_row`, i.e. the atom
it appends last (line 149). -/
def own_fragment (e : Entity) (parent : Option String) : Fragment :=
  ⟨e.table, (collect_items e.table e.items).2.1,
    (collect_items e.table e.items).2.2, parent⟩

/-! ### Rendering fragments to statement text -/

/-- Python `str(value)` on a row value (used at line 121). -/
def pyStr : EAttr → String
  | EAttr.vStr s => s
  | EAttr.vInt n => toString n
  | EAttr.vNone => "None"
  | EAttr.vList _ => ""

/-- Python `repr(value)` as it appears inside `str(tuple(...))`
(line 124-125): strings are quoted, integers are not. -/
def pyRepr : EAttr → String
  | EAttr.vStr s => "'" ++ s ++ "'"
  | EAttr.vInt n => toString n
  | EAttr.vNone => "None"
  | EAttr.vList _ => ""

/-- Python `str(tuple(xs))` on a list of already-rendered elements:
`()` when empty, a trailing comma for a singleton, comma-space
separators otherwise. -/
def pyTupleStr : List String → String
  | [] => "()"
  | [x] => "(" ++ x ++ ",)"
  | xs => "(" ++ String.intercalate ", " xs ++ ")"

/-- Python truthiness of `len(a) or len(b)` (line 118). -/
def pyOrNat (a b : Nat) : Nat := if a = 0 then b else a

/-- Lines 117-125, key side: the specially punctuated single-key text,
or `str(tuple(row_keys))`, each with quotes stripped. -/
def format_row_keys (ks : List String) (vs : List EAttr) : String :=
  if pyOrNat ks.length vs.length = 1 then
    pyRemove ("(" ++ ("'" ++ (ks.headD "") ++ "'") ++ ")") '\''
  else
    pyRemove (pyTupleStr (ks.map (fun k => "'" ++ k ++ "'"))) '\''

/-- Lines 117-125, value side: the specially punctuated single-value
text, or `str(tuple(row_values))`. -/
def format_row_values (ks : List String) (vs : List EAttr) : String :=
  if pyOrNat ks.length vs.length = 1 then
    "(" ++ ("'" ++ pyStr (vs.headD EAttr.vNone) ++ "'") ++ ")"
  else
    pyTupleStr (vs.map pyRepr)

/-- Lines 127-146: the exact query text of one fragment, the f-string
for the own-row upsert followed, when a parent is present, by the
association tail. -/
def Fragment.render (f : Fragment) : String :=
  let q :=
    "INSERT INTO " ++ f.table ++ " " ++
    "  " ++ format_row_keys f.rowKeys f.rowValues ++ " " ++
    "  VALUES " ++ format_row_values f.rowKeys f.rowValues ++ " " ++
    "ON DUPLICATE KEY UPDATE " ++
    "  id_" ++ f.table ++ " = LAST_INSERT_ID(id_" ++ f.table ++ "); " ++
    "SET @id_" ++ f.table ++ " = LAST_INSERT_ID() "
  match f.parent with
  | none => q
  | some p =>
      q ++ "; " ++
      "INSERT IGNORE INTO " ++ f.table ++ "_" ++ p ++ " " ++
      "  (id_" ++ f.table ++ ", id_" ++ p ++ ") " ++
      "  VALUES (@id_" ++ f.table ++ ", @id_" ++ p ++ ") "

/-! ## Flattener and batch executor -/

mutual
/-- `EntityManager.flatten_list` (lines 153-169), with the accumulator
`atoms` made explicit: recurse into nested elements, append atoms. -/
def flatten_list : List (Nested Fragment) → List Fragment → List Fragment
  | [] => fun atoms => atoms
  | e :: rest => fun atoms => flatten_list rest (flatten_element e atoms)

/-- The body of the loop of `flatten_list` on one element: recurse when
the element is another level of list, append the atom otherwise. -/
def flatten_element : Nested Fragment → List Fragment → List Fragment
  | Nested.atom a => fun atoms => atoms ++ [a]
  | Nested.nest l => fun atoms => flatten_list l atoms
end

/-- The payload of `insert_all`: a list of instances or a single one. -/
inductive Payload : Type where
  | list : List Entity → Payload
  | single : Entity → Payload

/-- Lines 182-191 of `insert_all`: the list `queries`, one element per
instance (each a nested list from the builder). -/
def insert_all_queries : Payload → List (Nested Fragment)
  | Payload.list es => es.map (fun e => Nested.nest (create_query_insert_row e none))
  | Payload.single e => [Nested.nest (create_query_insert_row e none)]

/-- Lines 193-196 of `insert_all`: flatten the nested lists, then
reverse the order of the stack of queries. -/
def insert_all_request (p : Payload) : List Fragment :=
  (flatten_list (insert_all_queries p) []).reverse

/-- Line 201 of `insert_all`: the single multi-statement batch string
sent to the store, `'; '.join(request)`. -/
def insert_all_statement (p : Payload) : String :=
  String.intercalate "; " ((insert_all_request p).map Fragment.render)

/-! ## Helper lemmas on the factory -/

theorem name_mk (key n : String) :
    (Entity.mk key [("name", EAttr.vStr n)]).name = n := rfl

/-- The validity test applied to each token of a delimited string. -/
def valid_token (n : String) : Bool := n != "" && !(pyContains n '\'')

theorem child_instances_foldl (key : String) (l : List String)
    (acc : List Entity) :
    l.foldl
      (fun acc val =>
        let inst := Entity.mk key [("name", EAttr.vStr (pyStrip val))]
        if inst.name = "" then acc
        else if pyContains inst.name '\'' then acc
        else acc ++ [inst])
      acc =
    acc ++ ((l.map pyStrip).filter valid_token).map
      (fun n => Entity.mk key [("name", EAttr.vStr n)]) := by
  induction l generalizing acc with
  | nil => simp
  | cons v l ih =>
      simp only [List.foldl_cons, List.map_cons, List.filter_cons, ih]
      by_cases h1 : pyStrip v = ""
      · simp [name_mk, valid_token, h1]
      · by_cases h2 : pyContains (pyStrip v) '\''
        · simp [name_mk, valid_token, h1, h2]
        · simp [name_mk, valid_token, h1, h2]

theorem child_instances_eq (key value : String) :
    child_instances key value =
      (((pySplit ',' value).map pyStrip).filter valid_token).map
        (fun n => Entity.mk key [("name", EAttr.vStr n)]) := by
  unfold child_instances
  simpa using child_instances_foldl key (pySplit ',' value) []

theorem child_instances_name_valid (key value : String) (c : Entity)
    (hc : c ∈ child_instances key value) :
    c.name ≠ "" ∧ pyContains c.name '\'' = false := by
  rw [child_instances_eq] at hc
  obtain ⟨n, hn, rfl⟩ := List.mem_map.mp hc
  obtain ⟨-, hv⟩ := List.mem_filter.mp hn
  simp only [valid_token, Bool.and_eq_true, bne_iff_ne, ne_eq,
    Bool.not_eq_true'] at hv
  simpa [name_mk] using hv

theorem create_instance_total (entity : String)
    (attributes : List (String × PyVal)) (h : entity ∈ class_register) :
    (create_instance entity attributes).isSome = true := by
  simp [create_instance, h]

/-! ## Claims on the entity factory -/

/-- C4, counterexample: an attribute mapping whose required `name`
field is the empty string still produces a Category instance; the
factory's emptiness check applies only to children split from delimited
strings, so the claimed "no instance for an empty required field" fails
on this input. -/
theorem c4_counterexample :
    create_instance "category" [("name", PyVal.pStr "")] =
      some (Entity.mk "category" [("name", EAttr.vStr "")]) ∧
    (Entity.mk "category" [("name", EAttr.vStr "")]).name = "" := by
  exact ⟨by decide, by decide⟩

/-- C4 (amended): `create_instance` validates required fields only for
the child entities it expands out of comma-delimited string attributes
— every child instance it builds has a nonempty name — while the
top-level entity is always constructed and returned for any known
entity kind, whatever its attribute values (in particular with an empty
or absent required field). -/
theorem c4_validation_children_only :
    (∀ key value c, c ∈ child_instances key value → c.name ≠ "") ∧
    (∀ entity attributes, entity ∈ class_register →
      (create_instance entity attributes).isSome = true) := by
  constructor
  · intro key value c hc
    exact (child_instances_name_valid key value c hc).1
  · intro entity attributes h
    exact create_instance_total entity attributes h

/-- C4, witness: the amended statement evaluated on concrete inputs: a
child split from `"A"` has a nonempty name, and a category built from
an empty name is still returned. -/
theorem c4_validation_children_only_witness :
    (Entity.mk "category" [("name", EAttr.vStr "A")]).name ≠ "" ∧
    (create_instance "category" [("name", PyVal.pStr "")]).isSome = true := by
  exact ⟨c4_validation_children_only.1 "category" "A" _ (by decide),
    c4_validation_children_only.2 "category" [("name", PyVal.pStr "")]
      (by decide)⟩

/-- C5, counterexample: a Category whose name contains a single quote
is happily constructed by `create_instance` when the name is passed
directly (the quote check runs only on children split from delimited
strings), refuting the claim that construction always fails for such
names. -/
theorem c5_counterexample :
    create_instance "category" [("name", PyVal.pStr "O'Brien")] =
      some (Entity.mk "category" [("name", EAttr.vStr "O'Brien")]) ∧
    pyContains (Entity.mk "category"
      [("name", EAttr.vStr "O'Brien")]).name '\'' = true := by
  exact ⟨by decide, by decide⟩

/-- C5 (amended): the rejection of names containing a single quote
happens only on the child-expansion path: no child instance built from
a comma-delimited string attribute carries a quote in its name, whereas
direct construction of a Category from a `name` attribute returns the
instance unexamined, quote or not. -/
theorem c5_quote_rejection_children_only :
    (∀ key value c, c ∈ child_instances key value →
      pyContains c.name '\'' = false) ∧
    (∀ n, create_instance "category" [("name", PyVal.pStr n)] =
      some (Entity.mk "category" [("name", EAttr.vStr n)])) := by
  constructor
  · intro key value c hc
    exact (child_instances_name_valid key value c hc).2
  · intro n
    rfl

/-- C5, witness: the amended statement evaluated on concrete inputs: a
child split from `"A,O'Brien"` carries no quote, and a directly built
category named `O'Brien` is returned as is. -/
theorem c5_quote_rejection_children_only_witness :
    pyContains (Entity.mk "category"
      [("name", EAttr.vStr "A")]).name '\'' = false ∧
    create_instance "category" [("name", PyVal.pStr "O'Brien")] =
      some (Entity.mk "category" [("name", EAttr.vStr "O'Brien")]) := by
  exact ⟨c5_quote_rejection_children_only.1 "category" "A,O'Brien" _
      (by decide),
    c5_quote_rejection_children_only.2 "O'Brien"⟩

/-- C6: a comma-delimited string attribute whose key names a child
entity kind is split on commas, each token trimmed, one child built per
surviving token, and only the failing tokens are dropped (the surviving
list is exactly the filter of the token list, so a bad token never
affects its siblings); concretely `"A, B ,C"` yields the three
categories `A`, `B`, `C` and `"A,"` yields only `A`. -/
theorem c6_delimited_splitting :
    (∀ key value,
      child_instances key value =
        (((pySplit ',' value).map pyStrip).filter valid_token).map
          (fun n => Entity.mk key [("name", EAttr.vStr n)])) ∧
    create_instance "product"
        [("name", PyVal.pStr "P"), ("category", PyVal.pStr "A, B ,C")] =
      some (Entity.mk "product"
        [("name", EAttr.vStr "P"),
         ("category", EAttr.vList
           [Entity.mk "category" [("name", EAttr.vStr "A")],
            Entity.mk "category" [("name", EAttr.vStr "B")],
            Entity.mk "category" [("name", EAttr.vStr "C")]])]) ∧
    create_instance "product"
        [("name", PyVal.pStr "P"), ("category", PyVal.pStr "A,")] =
      some (Entity.mk "product"
        [("name", EAttr.vStr "P"),
         ("category", EAttr.vList
           [Entity.mk "category" [("name", EAttr.vStr "A")]])]) := by
  refine ⟨child_instances_eq, by decide, by decide⟩

/-! ## Helper lemmas on the builder and the flattener -/

/-- The child entities carried by the list-valued attributes of an
item list, in attribute order. -/
def items_children : List (String × EAttr) → List Entity
  | [] => []
  | (_, EAttr.vList cs) :: rest => cs ++ items_children rest
  | _ :: rest => items_children rest

/-- The child entities of an entity (its categories and stores, for a
Product). -/
def children_of (e : Entity) : List Entity := items_children e.items

theorem children_queries_map (table : String) (cs : List Entity) :
    children_queries table cs =
      cs.map (fun c => Nested.nest (create_query_insert_row c (some table))) := by
  induction cs with
  | nil => simp [children_queries]
  | cons c rest ih => simp [children_queries, ih]

theorem collect_items_fst (table : String) (items : List (String × EAttr)) :
    (collect_items table items).1 =
      (items_children items).map
        (fun c => Nested.nest (create_query_insert_row c (some table))) := by
  induction items with
  | nil => simp [collect_items, items_children]
  | cons kv rest ih =>
      obtain ⟨k, v⟩ := kv
      cases v with
      | vStr s => simpa [collect_items, items_children] using ih
      | vInt n => simpa [collect_items, items_children] using ih
      | vNone => simpa [collect_items, items_children] using ih
      | vList cs =>
          simp [collect_items, items_children, children_queries_map, ih]

mutual
theorem flatten_list_acc : ∀ (l : List (Nested Fragment))
    (atoms : List Fragment),
    flatten_list l atoms = atoms ++ flatten_list l []
  | [], atoms => by simp [flatten_list]
  | e :: rest, atoms => by
      simp only [flatten_list]
      rw [flatten_list_acc rest (flatten_element e atoms),
        flatten_list_acc rest (flatten_element e []),
        flatten_element_acc e atoms]
      simp

theorem flatten_element_acc : ∀ (e : Nested Fragment)
    (atoms : List Fragment),
    flatten_element e atoms = atoms ++ flatten_element e []
  | Nested.atom a, atoms => by simp [flatten_element]
  | Nested.nest l, atoms => by
      simp only [flatten_element]
      exact flatten_list_acc l atoms
end

theorem flatten_list_cons (e : Nested Fragment)
    (rest : List (Nested Fragment)) :
    flatten_list (e :: rest) [] =
      flatten_element e [] ++ flatten_list rest [] := by
  simp only [flatten_list]
  rw [flatten_list_acc rest (flatten_element e [])]

theorem flatten_list_append (l1 l2 : List (Nested Fragment)) :
    flatten_list (l1 ++ l2) [] =
      flatten_list l1 [] ++ flatten_list l2 [] := by
  induction l1 with
  | nil => simp [flatten_list]
  | cons e rest ih =>
      rw [List.cons_append, flatten_list_cons, flatten_list_cons, ih,
        List.append_assoc]

theorem flatten_list_atom (a : Fragment) :
    flatten_list [Nested.atom a] [] = [a] := by
  rw [flatten_list_cons]
  simp [flatten_element, flatten_list]

theorem flatten_list_nest (l : List (Nested Fragment)) :
    flatten_list [Nested.nest l] [] = flatten_list l [] := by
  rw [flatten_list_cons]
  simp [flatten_element, flatten_list]

/-- The output of the builder is the children's nested blocks followed
by the entity's own fragment. -/
theorem c3_postorder_shape (e : Entity) (parent : Option String) :
    create_query_insert_row e parent =
      (children_of e).map
        (fun c => Nested.nest (create_query_insert_row c (some e.table))) ++
      [Nested.atom (own_fragment e parent)] := by
  obtain ⟨table, items⟩ := e
  rw [create_query_insert_row]
  simp [collect_items_fst, own_fragment, children_of, Entity.table,
    Entity.items]

/-! ## Claims on the shape of the builder output -/

/-- C3, counterexample: for a Product owning one Category, the nested
output of `create_query_insert_row` is the child's nested block
followed by the Product's own fragment — the own fragment is appended
last (line 149), after the children, so it does not precede them as the
claim states; in depth-first order the category fragment comes first. -/
theorem c3_counterexample :
    (create_query_insert_row
        (Entity.mk "product"
          [("name", EAttr.vStr "P"),
           ("category", EAttr.vList
             [Entity.mk "category" [("name", EAttr.vStr "A")]])])
        none).map
      (fun n => match n with | Nested.atom _ => true | Nested.nest _ => false) =
      [false, true] ∧
    flatten_list
        (create_query_insert_row
          (Entity.mk "product"
            [("name", EAttr.vStr "P"),
             ("category", EAttr.vList
               [Entity.mk "category" [("name", EAttr.vStr "A")]])])
          none) [] =
      [⟨"category", ["name"], [EAttr.vStr "A"], some "product"⟩,
       own_fragment
         (Entity.mk "product"
           [("name", EAttr.vStr "P"),
            ("category", EAttr.vList
              [Entity.mk "category" [("name", EAttr.vStr "A")]])])
         none] := by
  exact ⟨by decide, by decide⟩

/-- C3 (amended): `create_query_insert_row` is a post-order traversal:
the nested output is the list of the children's nested blocks, in
attribute order, followed by the entity's own fragment appended last
(so each node's own fragment comes after, not before, all of its
children's fragments). -/
theorem c3_postorder (e : Entity) (parent : Option String) :
    create_query_insert_row e parent =
      (children_of e).map
        (fun c => Nested.nest (create_query_insert_row c (some e.table))) ++
      [Nested.atom (own_fragment e parent)] :=
  c3_postorder_shape e parent

theorem pyRemove_append (a b : String) (c : Char) :
    pyRemove (a ++ b) c = pyRemove a c ++ pyRemove b c := by
  have h : (a ++ b).data = a.data ++ b.data := rfl
  have h2 : ∀ (x y : List Char), String.mk x ++ String.mk y = String.mk (x ++ y) :=
    fun _ _ => rfl
  simp [pyRemove, h, List.filter_append, h2]

/-- C9: when the collected attributes of an entity reduce to a single
(column, value) pair, the builder takes the single-row branch (lines
117-122): the last element of its output is the entity's own fragment
carrying exactly that pair, the rendered key list is the parenthesized
bare column name and the rendered value list the parenthesized quoted
value — neither with a trailing comma — whereas the tuple formatting
used for other sizes would have produced a trailing comma on a
singleton. -/
theorem c9_single_column_formatting (e : Entity) (parent : Option String)
    (k : String) (v : EAttr)
    (hk : (own_fragment e parent).rowKeys = [k])
    (hv : (own_fragment e parent).rowValues = [v]) :
    (create_query_insert_row e parent).getLast? =
      some (Nested.atom (own_fragment e parent)) ∧
    format_row_keys (own_fragment e parent).rowKeys
        (own_fragment e parent).rowValues =
      "(" ++ pyRemove k '\'' ++ ")" ∧
    format_row_values (own_fragment e parent).rowKeys
        (own_fragment e parent).rowValues =
      "(" ++ ("'" ++ pyStr v ++ "'") ++ ")" ∧
    pyTupleStr ["'" ++ pyStr v ++ "'"] = "(" ++ ("'" ++ pyStr v ++ "'") ++ ",)" := by
  refine ⟨?_, ?_, ?_, rfl⟩
  · rw [c3_postorder_shape e parent]
    exact List.getLast?_concat _
  · rw [hk, hv]
    simp only [format_row_keys, pyOrNat, List.length_singleton]
    norm_num
    rw [show ("(" ++ ("'" ++ k ++ "'") ++ ")" : String) =
      "(" ++ ("'" ++ (k ++ ("'" ++ ")"))) from by simp [String.append_assoc],
      pyRemove_append, pyRemove_append, pyRemove_append]
    simp [List.headD]
    rfl
  · rw [hk, hv]
    simp [format_row_values, pyOrNat]

/-- C9, witness: the single-column formatting evaluated on a Category
built with only a name. -/
theorem c9_single_column_formatting_witness :
    (create_query_insert_row
        (Entity.mk "category" [("name", EAttr.vStr "Snacks")]) none).getLast? =
      some (Nested.atom (own_fragment
        (Entity.mk "category" [("name", EAttr.vStr "Snacks")]) none)) ∧
    format_row_keys
        (own_fragment
          (Entity.mk "category" [("name", EAttr.vStr "Snacks")]) none).rowKeys
        (own_fragment
          (Entity.mk "category" [("name", EAttr.vStr "Snacks")]) none).rowValues =
      "(" ++ pyRemove "name" '\'' ++ ")" ∧
    format_row_values
        (own_fragment
          (Entity.mk "category" [("name", EAttr.vStr "Snacks")]) none).rowKeys
        (own_fragment
          (Entity.mk "category" [("name", EAttr.vStr "Snacks")]) none).rowValues =
      "(" ++ ("'" ++ pyStr (EAttr.vStr "Snacks") ++ "'") ++ ")" ∧
    pyTupleStr ["'" ++ pyStr (EAttr.vStr "Snacks") ++ "'"] =
      "(" ++ ("'" ++ pyStr (EAttr.vStr "Snacks") ++ "'") ++ ",)" :=
  c9_single_column_formatting
    (Entity.mk "category" [("name", EAttr.vStr "Snacks")]) none
    "name" (EAttr.vStr "Snacks") (by decide) (by decide)

/-- C10: wrapping a single payload entity in a one-element list does
not change anything: `insert_all` builds the same request list and the
same multi-statement batch string for a bare entity and for the
singleton list holding it. -/
theorem c10_single_vs_singleton_list (e : Entity) :
    insert_all_request (Payload.single e) =
      insert_all_request (Payload.list [e]) ∧
    insert_all_statement (Payload.single e) =
      insert_all_statement (Payload.list [e]) := by
  constructor
  · simp [insert_all_request, insert_all_queries]
  · simp [insert_all_statement, insert_all_request, insert_all_queries]

/-! ## Session-variable discipline over the batch (C1) -/

/-- The session variable a fragment's own-row part sets
(`SET @id_<table> = LAST_INSERT_ID()`, line 134). -/
def sets_var (f : Fragment) (v : String) : Bool :=
  v == "@id_" ++ f.table

/-- The session variables a fragment references: only the association
tail reads variables, namely `@id_<table>` and `@id_<parent>`
(line 144). -/
def refs_var (f : Fragment) (v : String) : Bool :=
  match f.parent with
  | none => false
  | some p => v == "@id_" ++ f.table || v == "@id_" ++ p

/-- Every fragment's parent reference is covered: the parent table is
the fragment's own table or the table of an earlier fragment (`W`
collects the tables of the fragments already placed). -/
def covered (W : List String) : List Fragment → Prop
  | [] => True
  | f :: rest =>
      (∀ p, f.parent = some p → (p = f.table ∨ p ∈ W)) ∧
      covered (f.table :: W) rest

/-- The table collection after placing a list of fragments. -/
def wAfter (W : List String) : List Fragment → List String
  | [] => W
  | f :: rest => wAfter (f.table :: W) rest

theorem subset_wAfter : ∀ (l : List Fragment) (W : List String)
    {t : String}, t ∈ W → t ∈ wAfter W l
  | [], _, _, h => h
  | f :: rest, W, _, h =>
      subset_wAfter rest (f.table :: W) (List.mem_cons_of_mem _ h)

theorem covered_mono (l : List Fragment) (W W' : List String)
    (hsub : ∀ t, t ∈ W → t ∈ W') (h : covered W l) : covered W' l := by
  induction l generalizing W W' with
  | nil => trivial
  | cons f rest ih =>
      obtain ⟨h1, h2⟩ := h
      refine ⟨fun p hp => ?_, ih _ _ ?_ h2⟩
      · rcases h1 p hp with h | h
        · exact Or.inl h
        · exact Or.inr (hsub _ h)
      · intro t ht
        rcases List.mem_cons.mp ht with h | h
        · exact h ▸ List.mem_cons_self _ _
        · exact List.mem_cons_of_mem _ (hsub _ h)

theorem covered_append (l1 l2 : List Fragment) (W : List String)
    (h1 : covered W l1) (h2 : covered (wAfter W l1) l2) :
    covered W (l1 ++ l2) := by
  induction l1 generalizing W with
  | nil => exact h2
  | cons f rest ih =>
      obtain ⟨hf, hr⟩ := h1
      exact ⟨hf, ih _ hr h2⟩

mutual
theorem covered_build : ∀ (e : Entity) (parent : Option String)
    (W : List String), (∀ p, parent = some p → p ∈ W) →
    covered W ((flatten_list (create_query_insert_row e parent) []).reverse)
  | .mk table items, parent, W => fun h => by
      rw [create_query_insert_row]
      show covered W ((flatten_list
        ((collect_items table items).1 ++
          [Nested.atom ⟨table, (collect_items table items).2.1,
            (collect_items table items).2.2, parent⟩]) []).reverse)
      rw [flatten_list_append, flatten_list_atom, List.reverse_append]
      refine ⟨fun p hp => Or.inr (h p hp), ?_⟩
      exact covered_collect table items (table :: W) (List.mem_cons_self _ _)

theorem covered_collect : ∀ (table : String)
    (items : List (String × EAttr)) (W : List String), table ∈ W →
    covered W ((flatten_list (collect_items table items).1 []).reverse)
  | _, [], _ => fun _ => by
      simp [collect_items, flatten_list, covered]
  | table, (k, EAttr.vNone) :: rest, W => fun h => by
      rw [collect_items]
      exact covered_collect table rest W h
  | table, (k, EAttr.vStr s) :: rest, W => fun h => by
      rw [collect_items]
      exact covered_collect table rest W h
  | table, (k, EAttr.vInt n) :: rest, W => fun h => by
      rw [collect_items]
      exact covered_collect table rest W h
  | table, (k, EAttr.vList cs) :: rest, W => fun h => by
      rw [collect_items]
      show covered W ((flatten_list
        (children_queries table cs ++ (collect_items table rest).1)
          []).reverse)
      rw [flatten_list_append, List.reverse_append]
      refine covered_append _ _ _ (covered_collect table rest W h) ?_
      exact covered_children table cs _ (subset_wAfter _ _ h)

theorem covered_children : ∀ (table : String) (cs : List Entity)
    (W : List String), table ∈ W →
    covered W ((flatten_list (children_queries table cs) []).reverse)
  | _, [], _ => fun _ => by
      simp [children_queries, flatten_list, covered]
  | table, c :: rest, W => fun h => by
      rw [children_queries, flatten_list_cons]
      show covered W ((flatten_list (create_query_insert_row c (some table)) []
        ++ flatten_list (children_queries table rest) []).reverse)
      rw [List.reverse_append]
      refine covered_append _ _ _ (covered_children table rest W h) ?_
      refine covered_build c (some table) _ (fun p hp => ?_)
      cases hp
      exact subset_wAfter _ _ h
end

theorem covered_request : ∀ (payload : Payload),
    covered [] (insert_all_request payload)
  | Payload.single e => by
      rw [insert_all_request, insert_all_queries, flatten_list_nest]
      exact covered_build e none [] (fun p hp => Option.noConfusion hp)
  | Payload.list es => by
      rw [insert_all_request, insert_all_queries]
      exact covered_payload_list es []
where
  covered_payload_list : ∀ (es : List Entity) (W : List String),
      covered W ((flatten_list
        (es.map (fun e => Nested.nest (create_query_insert_row e none)))
        []).reverse)
    | [], _ => by simp [flatten_list, covered]
    | e :: rest, W => by
        rw [List.map_cons, flatten_list_cons]
        show covered W ((flatten_element
          (Nested.nest (create_query_insert_row e none)) [] ++
          flatten_list (rest.map
            (fun e => Nested.nest (create_query_insert_row e none))) []).reverse)
        rw [List.reverse_append]
        refine covered_append _ _ _ (covered_payload_list rest W) ?_
        have : flatten_element
            (Nested.nest (create_query_insert_row e none)) [] =
            flatten_list (create_query_insert_row e none) [] := by
          simp [flatten_element]
        rw [this]
        exact covered_build e none _ (fun p hp => Option.noConfusion hp)

theorem covered_split : ∀ (l1 : List Fragment) (W : List String)
    (f : Fragment) (l2 : List Fragment) (v : String),
    covered W (l1 ++ f :: l2) → refs_var f v = true →
    sets_var f v = true ∨ (∃ g ∈ l1, sets_var g v = true) ∨
      (∃ t ∈ W, v = "@id_" ++ t)
  | [], W, f, l2, v => fun hc hr => by
      obtain ⟨h1, -⟩ := hc
      rw [refs_var] at hr
      cases hp : f.parent with
      | none => rw [hp] at hr; exact absurd hr (by simp)
      | some p =>
          rw [hp] at hr
          rcases Bool.or_eq_true_iff.mp hr with h | h
          · exact Or.inl (by rw [sets_var]; exact h)
          · rcases h1 p hp with he | hw
            · refine Or.inl ?_
              rw [sets_var, ← he]
              exact h
            · exact Or.inr (Or.inr ⟨p, hw, by simpa using h⟩)
  | g :: l1', W, f, l2, v => fun hc hr => by
      obtain ⟨-, h2⟩ := hc
      rcases covered_split l1' (g.table :: W) f l2 v h2 hr with h | h | h
      · exact Or.inl h
      · obtain ⟨g', hg', hs⟩ := h
        exact Or.inr (Or.inl ⟨g', List.mem_cons_of_mem _ hg', hs⟩)
      · obtain ⟨t, ht, hv⟩ := h
        rcases List.mem_cons.mp ht with h | h
        · refine Or.inr (Or.inl ⟨g, List.mem_cons_self _ _, ?_⟩)
          rw [sets_var, hv, h]
          simp
        · exact Or.inr (Or.inr ⟨t, h, hv⟩)

/-- C1: in the flattened, reversed request that `insert_all` builds,
every fragment that references a session variable `@id_<t>` either sets
that variable itself (its own-row upsert precedes the reference inside
the same fragment) or is preceded by a fragment that sets it; in
particular no fragment referencing `@id_category` is placed before the
category upsert fragment that sets it. -/
theorem c1_session_variable_ordering (payload : Payload)
    (l1 : List Fragment) (f : Fragment) (l2 : List Fragment) (v : String)
    (hsplit : insert_all_request payload = l1 ++ f :: l2)
    (href : refs_var f v = true) :
    sets_var f v = true ∨ ∃ g ∈ l1, sets_var g v = true := by
  have hc := covered_request payload
  rw [hsplit] at hc
  rcases covered_split l1 [] f l2 v hc href with h | h | h
  · exact Or.inl h
  · exact Or.inr h
  · simp at h

/-- C1, witness: for a Product owning two Categories, the request is
`[product, category B, category A]`; the middle fragment references
`@id_category` and sets it itself. -/
theorem c1_session_variable_ordering_witness :
    sets_var ⟨"category", ["name"], [EAttr.vStr "B"], some "product"⟩
      "@id_category" = true ∨
    ∃ g ∈ [(⟨"product", ["name"], [EAttr.vStr "P"], none⟩ : Fragment)],
      sets_var g "@id_category" = true :=
  c1_session_variable_ordering
    (Payload.list [Entity.mk "product"
      [("name", EAttr.vStr "P"),
       ("category", EAttr.vList
         [Entity.mk "category" [("name", EAttr.vStr "A")],
          Entity.mk "category" [("name", EAttr.vStr "B")]])]])
    [⟨"product", ["name"], [EAttr.vStr "P"], none⟩]
    ⟨"category", ["name"], [EAttr.vStr "B"], some "product"⟩
    [⟨"category", ["name"], [EAttr.vStr "A"], some "product"⟩]
    "@id_category" (by decide) (by decide)

/-! ## Abstract store model (C2)

The statements the builder emits are MySQL text; their effect on the
store is modelled from the spec (§6): each entity table has a unique
key on `name`, the own-row statement is an upsert that recovers the
row identifier either way, and association statements are
insert-or-ignore on the identifier pair. -/

/-- Modelled from the spec: one row of an entity table: the synthetic
identifier and the inserted column values. -/
structure Row where
  id : Nat
  cols : List (String × EAttr)
deriving DecidableEq

/-- Modelled from the spec: the state of the store and of the
connection: entity-table rows tagged with their table name,
association-table rows `(table, id_child, id_parent)`, the session
variables, and the next synthetic identifier. -/
structure DB where
  rows : List (String × Row)
  assocs : List (String × Nat × Nat)
  vars : List (String × Nat)
  nextId : Nat
deriving DecidableEq

/-- The value of the `name` column of a fragment's own row (the unique
key of the entity tables). -/
def row_name (f : Fragment) : Option EAttr :=
  (f.rowKeys.zip f.rowValues).lookup "name"

/-- The identifier of the first row of `table` whose `name` column
holds `n` (the unique-key lookup of the upsert); a row without a
`name` value never matches (SQL `NULL`). -/
def find_row (rows : List (String × Row)) (table : String) (n : EAttr) :
    Option Nat :=
  match rows with
  | [] => none
  | (t, r) :: rest =>
      if t = table ∧ r.cols.lookup "name" = some n then some r.id
      else find_row rest table n

/-- Assign a session variable on the connection. -/
def set_var (vars : List (String × Nat)) (v : String) (i : Nat) :
    List (String × Nat) :=
  (v, i) :: vars

/-- Insert the fragment's own row as a fresh row of its table, under
the next synthetic identifier. -/
def insert_fresh (db : DB) (f : Fragment) : Nat × DB :=
  (db.nextId,
   { db with
      rows := db.rows ++ [(f.table, ⟨db.nextId, f.rowKeys.zip f.rowValues⟩)],
      nextId := db.nextId + 1 })

/-- Modelled from the spec: the own-row upsert of a fragment
(`INSERT ... ON DUPLICATE KEY UPDATE id_<t> = LAST_INSERT_ID(id_<t>)`):
find the row by its `name` key and recover its identifier, or insert a
fresh row under the next identifier. -/
def upsert_row (db : DB) (f : Fragment) : Nat × DB :=
  match row_name f with
  | none => insert_fresh db f
  | some n =>
      match find_row db.rows f.table n with
      | some i => (i, db)
      | none => insert_fresh db f

/-- Modelled from the spec: the effect of one builder fragment: the
own-row upsert, the `SET @id_<table> = LAST_INSERT_ID()` assignment,
and, when a parent is present, the `INSERT IGNORE` of the identifier
pair into the association table; reading an unset session variable
fails the statement. -/
def exec_fragment (db : DB) (f : Fragment) : Except String DB :=
  let u := upsert_row db f
  let dbv : DB := { u.2 with vars := set_var u.2.vars ("@id_" ++ f.table) u.1 }
  match f.parent with
  | none => Except.ok dbv
  | some p =>
      match dbv.vars.lookup ("@id_" ++ p) with
      | none => Except.error "unset session variable"
      | some pid =>
          if (f.table ++ "_" ++ p, u.1, pid) ∈ dbv.assocs then Except.ok dbv
          else Except.ok
            { dbv with assocs := dbv.assocs ++ [(f.table ++ "_" ++ p, u.1, pid)] }

/-- Execute the fragments of a request in order, stopping at the first
error. -/
def exec_batch (db : DB) : List Fragment → Except String DB
  | [] => Except.ok db
  | f :: rest =>
      match exec_fragment db f with
      | Except.error e => Except.error e
      | Except.ok db' => exec_batch db' rest

theorem find_row_append (l1 l2 : List (String × Row)) (t : String)
    (n : EAttr) :
    find_row (l1 ++ l2) t n =
      match find_row l1 t n with
      | some i => some i
      | none => find_row l2 t n := by
  induction l1 with
  | nil => simp [find_row]
  | cons r rest ih =>
      obtain ⟨rt, row⟩ := r
      by_cases h : rt = t ∧ row.cols.lookup "name" = some n
      · simp [find_row, h]
      · simp [find_row, h, ih]

theorem lookup_set_var (vars : List (String × Nat)) (v : String) (i : Nat)
    (w : String) :
    (set_var vars v i).lookup w = if w = v then some i else vars.lookup w := by
  by_cases h : w = v
  · simp [set_var, List.lookup, h]
  · have hb : (w == v) = false := beq_eq_false_iff_ne.mpr h
    simp [set_var, List.lookup, h, hb]

theorem upsert_row_mono (db : DB) (f : Fragment) :
    ∃ ext, (upsert_row db f).2.rows = db.rows ++ ext ∧
      (upsert_row db f).2.assocs = db.assocs ∧
      (upsert_row db f).2.vars = db.vars := by
  unfold upsert_row
  split
  · exact ⟨[(f.table, ⟨db.nextId, f.rowKeys.zip f.rowValues⟩)],
      by simp [insert_fresh]⟩
  · split
    · exact ⟨[], by simp⟩
    · exact ⟨[(f.table, ⟨db.nextId, f.rowKeys.zip f.rowValues⟩)],
        by simp [insert_fresh]⟩

/-- The variable state after a fragment's own part. -/
def vars_after (db : DB) (f : Fragment) : List (String × Nat) :=
  set_var (upsert_row db f).2.vars ("@id_" ++ f.table) (upsert_row db f).1

theorem exec_fragment_no_parent (db : DB) (f : Fragment)
    (hp : f.parent = none) :
    exec_fragment db f =
      Except.ok { (upsert_row db f).2 with vars := vars_after db f } := by
  simp [exec_fragment, hp, vars_after]

theorem exec_fragment_parent_unset (db : DB) (f : Fragment) (p : String)
    (hp : f.parent = some p)
    (hl : (vars_after db f).lookup ("@id_" ++ p) = none) :
    exec_fragment db f = Except.error "unset session variable" := by
  simp only [exec_fragment, hp, vars_after] at hl ⊢
  rw [hl]

theorem exec_fragment_parent_set (db : DB) (f : Fragment) (p : String)
    (pid : Nat) (hp : f.parent = some p)
    (hl : (vars_after db f).lookup ("@id_" ++ p) = some pid) :
    exec_fragment db f =
      if (f.table ++ "_" ++ p, (upsert_row db f).1, pid) ∈
          (upsert_row db f).2.assocs then
        Except.ok { (upsert_row db f).2 with vars := vars_after db f }
      else
        Except.ok
          { (upsert_row db f).2 with
              vars := vars_after db f,
              assocs := (upsert_row db f).2.assocs ++
                [(f.table ++ "_" ++ p, (upsert_row db f).1, pid)] } := by
  simp only [exec_fragment, hp, vars_after] at hl ⊢
  rw [hl]

theorem exec_fragment_mono (db db' : DB) (f : Fragment)
    (h : exec_fragment db f = Except.ok db') :
    (∃ ext, db'.rows = db.rows ++ ext) ∧
    (∀ a ∈ db.assocs, a ∈ db'.assocs) := by
  obtain ⟨ext, hr, ha, -⟩ := upsert_row_mono db f
  cases hp : f.parent with
  | none =>
      rw [exec_fragment_no_parent db f hp] at h
      cases h
      exact ⟨⟨ext, by simpa using hr⟩, fun a haa => by simpa [ha] using haa⟩
  | some p =>
      cases hl : (vars_after db f).lookup ("@id_" ++ p) with
      | none =>
          rw [exec_fragment_parent_unset db f p hp hl] at h
          exact absurd h (by simp)
      | some pid =>
          rw [exec_fragment_parent_set db f p pid hp hl] at h
          by_cases hm : (f.table ++ "_" ++ p, (upsert_row db f).1, pid) ∈
              (upsert_row db f).2.assocs
          · rw [if_pos hm] at h
            cases h
            exact ⟨⟨ext, by simpa using hr⟩,
              fun a haa => by simpa [ha] using haa⟩
          · rw [if_neg hm] at h
            cases h
            refine ⟨⟨ext, by simpa using hr⟩, fun a haa => ?_⟩
            simp only [List.mem_append]
            exact Or.inl (by simpa [ha] using haa)

theorem exec_batch_mono : ∀ (ρ : List Fragment) (db db' : DB),
    exec_batch db ρ = Except.ok db' →
    (∃ ext, db'.rows = db.rows ++ ext) ∧
    (∀ a ∈ db.assocs, a ∈ db'.assocs)
  | [], db, db', h => by
      cases h
      exact ⟨⟨[], by simp⟩, fun a ha => ha⟩
  | f :: rest, db, db', h => by
      rw [exec_batch] at h
      cases hef : exec_fragment db f with
      | error e => rw [hef] at h; exact absurd h (by simp)
      | ok dbm =>
          rw [hef] at h
          obtain ⟨⟨e1, he1⟩, ha1⟩ := exec_fragment_mono db dbm f hef
          obtain ⟨⟨e2, he2⟩, ha2⟩ := exec_batch_mono rest dbm db' h
          exact ⟨⟨e1 ++ e2, by rw [he2, he1, List.append_assoc]⟩,
            fun a ha => ha2 _ (ha1 _ ha)⟩

theorem upsert_row_found (db : DB) (f : Fragment) (nv : EAttr) (i : Nat)
    (hn : row_name f = some nv)
    (hf : find_row db.rows f.table nv = some i) :
    upsert_row db f = (i, db) := by
  simp [upsert_row, hn, hf]

theorem upsert_row_new (db : DB) (f : Fragment) (nv : EAttr)
    (hn : row_name f = some nv)
    (hf : find_row db.rows f.table nv = none) :
    upsert_row db f = insert_fresh db f := by
  simp [upsert_row, hn, hf]

theorem find_row_prefix_some (l ext : List (String × Row)) (t : String)
    (n : EAttr) (i : Nat) (h : find_row l t n = some i) :
    find_row (l ++ ext) t n = some i := by
  rw [find_row_append, h]

theorem exec_fragment_ok_parts (db db' : DB) (f : Fragment)
    (h : exec_fragment db f = Except.ok db') :
    db'.rows = (upsert_row db f).2.rows ∧
    db'.vars = vars_after db f ∧
    db'.nextId = (upsert_row db f).2.nextId ∧
    (∀ a ∈ (upsert_row db f).2.assocs, a ∈ db'.assocs) ∧
    (∀ p, f.parent = some p → ∃ pid,
      (vars_after db f).lookup ("@id_" ++ p) = some pid ∧
      (f.table ++ "_" ++ p, (upsert_row db f).1, pid) ∈ db'.assocs) := by
  cases hp : f.parent with
  | none =>
      rw [exec_fragment_no_parent db f hp] at h
      cases h
      exact ⟨rfl, rfl, rfl, fun a ha => ha,
        fun p hpp => Option.noConfusion hpp⟩
  | some p =>
      cases hl : (vars_after db f).lookup ("@id_" ++ p) with
      | none =>
          rw [exec_fragment_parent_unset db f p hp hl] at h
          exact absurd h (by simp)
      | some pid =>
          rw [exec_fragment_parent_set db f p pid hp hl] at h
          by_cases hm : (f.table ++ "_" ++ p, (upsert_row db f).1, pid) ∈
              (upsert_row db f).2.assocs
          · rw [if_pos hm] at h
            cases h
            refine ⟨rfl, rfl, rfl, fun a ha => ha, fun q hq => ?_⟩
            cases hq
            exact ⟨pid, hl, hm⟩
          · rw [if_neg hm] at h
            cases h
            refine ⟨rfl, rfl, rfl, fun a ha => ?_, fun q hq => ?_⟩
            · simp only [List.mem_append]
              exact Or.inl ha
            · cases hq
              exact ⟨pid, hl, by simp⟩

theorem run2_stable : ∀ (ρ : List Fragment) (W : List String)
    (s1 s2 db1 : DB),
    exec_batch s1 ρ = Except.ok db1 →
    covered W ρ →
    (∀ f ∈ ρ, (row_name f).isSome = true) →
    s2.rows = db1.rows → s2.assocs = db1.assocs → s2.nextId = db1.nextId →
    (∀ t ∈ W, ∃ i, s1.vars.lookup ("@id_" ++ t) = some i ∧
      s2.vars.lookup ("@id_" ++ t) = some i) →
    ∃ db2, exec_batch s2 ρ = Except.ok db2 ∧
      db2.rows = db1.rows ∧ db2.assocs = db1.assocs
  | [], W, s1, s2, db1, h1, hcov, hn, hrows, has, hnext, hva => by
      rw [exec_batch] at h1
      cases h1
      exact ⟨s2, by rw [exec_batch], hrows, has⟩
  | f :: ρ', W, s1, s2, db1, h1, hcov, hn, hrows, has, hnext, hva => by
      obtain ⟨hcovf, hcov'⟩ := hcov
      rw [exec_batch] at h1
      cases hef : exec_fragment s1 f with
      | error e => rw [hef] at h1; exact absurd h1 (by simp)
      | ok s1' =>
      rw [hef] at h1
      have hnf := hn f (List.mem_cons_self _ _)
      obtain ⟨nv, hnv⟩ : ∃ nv, row_name f = some nv := by
        cases hrn : row_name f with
        | none => rw [hrn] at hnf; simp at hnf
        | some nv => exact ⟨nv, rfl⟩
      obtain ⟨hr1, hv1, hn1, ha1, hp1⟩ := exec_fragment_ok_parts s1 s1' f hef
      obtain ⟨ext2, hext2⟩ := (exec_batch_mono ρ' s1' db1 h1).1
      have hamono := (exec_batch_mono ρ' s1' db1 h1).2
      -- the identifier the first run recovered or created for `f`
      have hu1vars : (upsert_row s1 f).2.vars = s1.vars :=
        (upsert_row_mono s1 f).choose_spec.2.2
      -- the second run finds the same identifier in the final rows
      have hfind : find_row db1.rows f.table nv = some (upsert_row s1 f).1 := by
        cases hf1 : find_row s1.rows f.table nv with
        | some i1 =>
            have hu := upsert_row_found s1 f nv i1 hnv hf1
            rw [hext2, hr1, hu]
            exact find_row_prefix_some _ _ _ _ _ hf1
        | none =>
            have hu := upsert_row_new s1 f nv hnv hf1
            rw [hext2, hr1, hu]
            simp only [insert_fresh, List.append_assoc]
            rw [find_row_append, hf1]
            have : find_row
                ([(f.table, ⟨s1.nextId, f.rowKeys.zip f.rowValues⟩)] ++ ext2)
                f.table nv = some s1.nextId := by
              rw [List.cons_append, find_row]
              rw [if_pos ⟨rfl, by simpa [row_name] using hnv⟩]
            rw [this]
      have hfind2 : find_row s2.rows f.table nv = some (upsert_row s1 f).1 := by
        rw [hrows]; exact hfind
      have hu2 : upsert_row s2 f = ((upsert_row s1 f).1, s2) :=
        upsert_row_found s2 f nv (upsert_row s1 f).1 hnv hfind2
      have hva2 : vars_after s2 f =
          set_var s2.vars ("@id_" ++ f.table) (upsert_row s1 f).1 := by
        rw [vars_after, hu2]
      have hva1 : vars_after s1 f =
          set_var s1.vars ("@id_" ++ f.table) (upsert_row s1 f).1 := by
        rw [vars_after, hu1vars]
      -- run the second execution of `f`
      have hstep : ∃ s2', exec_fragment s2 f = Except.ok s2' ∧
          s2'.rows = db1.rows ∧ s2'.assocs = db1.assocs ∧
          s2'.nextId = db1.nextId ∧ s2'.vars = vars_after s2 f := by
        cases hp : f.parent with
        | none =>
            refine ⟨{ s2 with vars := vars_after s2 f }, ?_, hrows, has,
              hnext, rfl⟩
            rw [exec_fragment_no_parent s2 f hp, hu2]
        | some p =>
            obtain ⟨pid, hpid, hpair⟩ := hp1 p hp
            have hpid2 : (vars_after s2 f).lookup ("@id_" ++ p) = some pid := by
              rw [hva2, lookup_set_var]
              rw [hva1, lookup_set_var] at hpid
              by_cases hk : ("@id_" ++ p) = ("@id_" ++ f.table)
              · rw [if_pos hk] at hpid ⊢
                exact hpid
              · rw [if_neg hk] at hpid ⊢
                rcases hcovf p hp with he | hw
                · exact absurd (by rw [he]) hk
                · obtain ⟨i, hi1, hi2⟩ := hva p hw
                  rw [hi1] at hpid
                  rw [hi2, hpid]
            have hmem : (f.table ++ "_" ++ p, (upsert_row s2 f).1, pid) ∈
                (upsert_row s2 f).2.assocs := by
              rw [hu2]
              show _ ∈ s2.assocs
              rw [has]
              exact hamono _ hpair
            refine ⟨{ s2 with vars := vars_after s2 f }, ?_, hrows, has,
              hnext, rfl⟩
            rw [exec_fragment_parent_set s2 f p pid hp hpid2, if_pos hmem,
              hu2]
      obtain ⟨s2', hef2, hr2', ha2', hn2', hv2'⟩ := hstep
      -- recurse on the rest of the batch
      have hva' : ∀ t ∈ (f.table :: W), ∃ i,
          s1'.vars.lookup ("@id_" ++ t) = some i ∧
          s2'.vars.lookup ("@id_" ++ t) = some i := by
        intro t ht
        rw [hv1, hva1, hv2', hva2]
        by_cases hk : ("@id_" ++ t) = ("@id_" ++ f.table)
        · exact ⟨(upsert_row s1 f).1,
            by rw [lookup_set_var, if_pos hk],
            by rw [lookup_set_var, if_pos hk]⟩
        · rcases List.mem_cons.mp ht with he | hw
          · exact absurd (by rw [he]) hk
          · obtain ⟨i, hi1, hi2⟩ := hva t hw
            exact ⟨i, by rw [lookup_set_var, if_neg hk]; exact hi1,
              by rw [lookup_set_var, if_neg hk]; exact hi2⟩
      obtain ⟨db2, hexec2, hfr, hfa⟩ :=
        run2_stable ρ' (f.table :: W) s1' s2' db1 h1 hcov'
          (fun g hg => hn g (List.mem_cons_of_mem _ hg)) hr2' ha2' hn2' hva'
      refine ⟨db2, ?_, hfr, hfa⟩
      rw [exec_batch, hef2]
      exact hexec2

def exceptDecEq {ε α : Type} [DecidableEq ε] [DecidableEq α] :
    (a b : Except ε α) → Decidable (a = b)
  | Except.ok a, Except.ok b =>
      match decEq a b with
      | isTrue h => isTrue (by rw [h])
      | isFalse h => isFalse (fun hh => by cases hh; exact h rfl)
  | Except.error a, Except.error b =>
      match decEq a b with
      | isTrue h => isTrue (by rw [h])
      | isFalse h => isFalse (fun hh => by cases hh; exact h rfl)
  | Except.ok _, Except.error _ => isFalse (fun h => Except.noConfusion h)
  | Except.error _, Except.ok _ => isFalse (fun h => Except.noConfusion h)

instance : DecidableEq (Except String DB) := exceptDecEq

/-- C2: executing the batch built by `insert_all` a second time against
the store state its first execution produced succeeds and leaves every
table unchanged: no duplicate rows in the entity tables (every own-row
statement is an upsert on the `name` key) and no duplicate pairs in the
association tables (every association statement is an
insert-or-ignore), and no error is raised on the second run. -/
theorem c2_insert_all_idempotent (payload : Payload) (db db1 : DB)
    (hnames : ∀ f ∈ insert_all_request payload, (row_name f).isSome = true)
    (h1 : exec_batch db (insert_all_request payload) = Except.ok db1) :
    ∃ db2, exec_batch db1 (insert_all_request payload) = Except.ok db2 ∧
      db2.rows = db1.rows ∧ db2.assocs = db1.assocs :=
  run2_stable (insert_all_request payload) [] db db1 db1 h1
    (covered_request payload) hnames rfl rfl rfl
    (fun t ht => absurd ht (List.not_mem_nil t))

/-- C2, witness: a Product with one Category inserted into an empty
store; the second run returns successfully with the same rows and
association pairs. -/
theorem c2_insert_all_idempotent_witness :
    ∃ db2, exec_batch
        ⟨[("product", ⟨0, [("name", EAttr.vStr "P")]⟩),
          ("category", ⟨1, [("name", EAttr.vStr "A")]⟩)],
         [("category_product", 1, 0)],
         [("@id_category", 1), ("@id_product", 0)], 2⟩
        (insert_all_request (Payload.list
          [Entity.mk "product"
            [("name", EAttr.vStr "P"),
             ("category", EAttr.vList
               [Entity.mk "category" [("name", EAttr.vStr "A")]])]])) =
      Except.ok db2 ∧
      db2.rows = [("product", ⟨0, [("name", EAttr.vStr "P")]⟩),
        ("category", ⟨1, [("name", EAttr.vStr "A")]⟩)] ∧
      db2.assocs = [("category_product", 1, 0)] :=
  c2_insert_all_idempotent
    (Payload.list
      [Entity.mk "product"
        [("name", EAttr.vStr "P"),
         ("category", EAttr.vList
           [Entity.mk "category" [("name", EAttr.vStr "A")]])]])
    ⟨[], [], [], 0⟩
    ⟨[("product", ⟨0, [("name", EAttr.vStr "P")]⟩),
      ("category", ⟨1, [("name", EAttr.vStr "A")]⟩)],
     [("category_product", 1, 0)],
     [("@id_category", 1), ("@id_product", 0)], 2⟩
    (by decide) (by decide)

/-! ## Error handling of the batch executor (C7) -/

/-- What one call to `insert_all` does, observably: whether an
exception escapes it, what it printed, and the statements it submitted
to the store. -/
structure RunOutcome where
  raised : Option String
  printed : List String
  calls : List String
deriving DecidableEq

/-- Lines 198-206 of `insert_all`: join the request into one statement
string and submit it once; a store error is caught by the
`except Error` handler, which prints `The error '<e>' occurred` and
falls off the end of the method — nothing is re-raised and nothing is
retried.  The store is abstracted as the function `execStmt`. -/
def insert_all_run (execStmt : String → Except String Unit)
    (p : Payload) : RunOutcome :=
  let statement := insert_all_statement p
  match execStmt statement with
  | Except.ok _ => ⟨none, [], [statement]⟩
  | Except.error e =>
      ⟨none, ["The error '" ++ e ++ "' occurred"], [statement]⟩

/-- C7, counterexample: against a store that rejects the batch,
`insert_all` raises nothing to its caller — the error is caught and
printed (lines 205-206), refuting the claim that the underlying error
is propagated out of `insert_all`. -/
theorem c7_counterexample :
    (insert_all_run (fun _ => Except.error "boom")
      (Payload.single (Entity.mk "category"
        [("name", EAttr.vStr "A")]))).raised = none ∧
    (insert_all_run (fun _ => Except.error "boom")
      (Payload.single (Entity.mk "category"
        [("name", EAttr.vStr "A")]))).printed =
      ["The error 'boom' occurred"] := by
  exact ⟨rfl, rfl⟩

/-- C7 (amended): when the store rejects the batch, `insert_all`
submits it exactly once (no retry), catches the error and prints its
message, and returns normally: the error is swallowed, not surfaced to
the caller. -/
theorem c7_error_caught (execStmt : String → Except String Unit)
    (p : Payload) (e : String)
    (h : execStmt (insert_all_statement p) = Except.error e) :
    insert_all_run execStmt p =
      ⟨none, ["The error '" ++ e ++ "' occurred"],
       [insert_all_statement p]⟩ := by
  simp [insert_all_run, h]

/-- C7, witness: the amended statement evaluated against an
always-failing store. -/
theorem c7_error_caught_witness :
    insert_all_run (fun _ => Except.error "boom")
      (Payload.single (Entity.mk "category" [("name", EAttr.vStr "A")])) =
      ⟨none, ["The error 'boom' occurred"],
       [insert_all_statement (Payload.single
         (Entity.mk "category" [("name", EAttr.vStr "A")]))]⟩ :=
  c7_error_caught (fun _ => Except.error "boom")
    (Payload.single (Entity.mk "category" [("name", EAttr.vStr "A")]))
    "boom" rfl

/-! ## Row reader (C8) -/

/-- `EntityManager.select_row`, result handling (lines 263-278): the
store's reply to the built SELECT is abstracted as `records` (what
`fetchall` returned); the loop body returns on its first iteration an
instance created from the first record zipped with the column headers,
and when no record came back the loop body never runs and the method
falls through to `None`. -/
def select_row (table_anchor : String) (headers : List String)
    (records : List (List PyVal)) : Option Entity :=
  match records with
  | [] => none
  | record :: _ => create_instance table_anchor (headers.zip record)

/-- C8: `select_row` returns at most one entity: with no matching row
it returns an absent result (no error), and with one or more rows it
returns the entity built by `create_instance` from the first row's
column-to-value mapping, ignoring every further row. -/
theorem c8_select_first_row_or_none (table : String)
    (headers : List String) :
    select_row table headers [] = none ∧
    (∀ r rest, select_row table headers (r :: rest) =
      create_instance table (headers.zip r)) ∧
    (∀ r rest, select_row table headers (r :: rest) =
      select_row table headers [r]) := by
  exact ⟨rfl, fun r rest => rfl, fun r rest => rfl⟩

end PurBeurre
